import Mathlib

/-!
Verification of the logo-crawler pipeline (Go repository
`Tanmay-Thanvi/logo-crawler`), as a shallow embedding in Lean 4.

Conventions of the embedding:
* Go `int` is modelled as `Int`; Go `string` as `String` (domain logic) or
  `List Char` (for the character-level domain regex, where positional
  reasoning is needed).
* Network fetches and HTML parsing are modelled as oracle parameters: a
  function or list supplied to the embedded definition stands for the
  outcome of the corresponding I/O in one concrete execution.
* Concurrency is modelled by quantifying over the observable
  nondeterminism (an arbitrary permutation for collection order; an
  explicit transition system for the validation permit pool; an explicit
  defer/recover small-step model for the worker-pool panic boundary).
* Go `strings.ToLower` is modelled per character by `Char.toLower`
  (faithful on ASCII, which is the alphabet of every literal the code
  compares against).
* Go float64 comparisons of `w/h` against `0.5` and `2.0` are modelled by
  exact rational comparison.  For `|w|, |h| < 2^51` the rounded quotient
  can cross neither bound, so the models agree on every realistic image
  dimension.
-/

/-- Go struct `crawler.LogoInfo` (crawler.go). -/
structure LogoInfo where
  url : String
  width : Int
  height : Int
  valid : Bool
deriving DecidableEq, Repr

/-- Go struct `config.Preferences` (the YAML `preferred.min_width` /
`preferred.min_height` pair), flattened. -/
structure Preferences where
  minWidth : Int
  minHeight : Int
deriving DecidableEq, Repr

/-- Go struct `crawler.PublisherResult` (crawler.go).  `error` is the Go
`error` field modelled as an optional message; `duration` is opaque time,
modelled as a natural number supplied by the execution. -/
structure PublisherResult where
  publisher : String
  logos : List LogoInfo
  best : Option LogoInfo
  error : Option String
  duration : Nat
  index : Nat
deriving DecidableEq, Repr

/- ## CandidateExtractor (logo_extractor.go) -/

/-- Go `LogoExtractor.unique` (logo_extractor.go): drops empty strings and
duplicates, keeping the first occurrence.  The Go `seen` map is modelled
by the list of strings already emitted. -/
def unique (seen : List String) : List String → List String
  | [] => []
  | v :: rest =>
    if v ≠ "" ∧ v ∉ seen then v :: unique (v :: seen) rest
    else unique seen rest

/-- The fixed well-known fallback paths of `getCommonFallbacks`. -/
def commonFallbackPaths : List String :=
  ["/favicon.ico", "/favicon.png", "/favicon.svg", "/apple-touch-icon.png",
   "/apple-touch-icon-precomposed.png", "/logo.png", "/assets/logo.png",
   "/images/logo.png"]

/-- Go `LogoExtractor.getCommonFallbacks` (logo_extractor.go). -/
def getCommonFallbacks (domain : String) : List String :=
  commonFallbackPaths.map (fun p => "https://" ++ domain ++ p)

/-- Go `LogoExtractor.getClearbitLogo` (logo_extractor.go). -/
def getClearbitLogo (domain : String) : String :=
  "https://logo.clearbit.com/" ++ domain

/-- Go `LogoExtractor.ExtractCandidates` (logo_extractor.go).  The parameter
`html` is the oracle for the value `extractFromHTML(baseURL)` returned by
the network-and-parse stage in the execution being modelled (it is `[]`
whenever every fetch or parse fails).  The function appends the common
fallbacks and the Clearbit URL and deduplicates the combined list. -/
def extractCandidates (html : List String) (domain : String) : List String :=
  unique [] (html ++ getCommonFallbacks domain ++ [getClearbitLogo domain])

/-- The combined candidate list before the final deduplication in
`ExtractCandidates`. -/
def combinedCandidates (html : List String) (domain : String) : List String :=
  html ++ getCommonFallbacks domain ++ [getClearbitLogo domain]

/- ## CandidateValidator (logo_validator.go) -/

/-- Go `LogoValidator.validateSingleLogo` (logo_validator.go), body after the
permit is acquired: the oracle `fetch` stands for
`getImageDimensionsWithContext`, which yields `(0, 0)` on any request,
transport or decode failure.  Only strictly positive dimensions produce a
`LogoInfo`. -/
def validateSingleLogo (fetch : String → Int × Int) (url : String) :
    Option LogoInfo :=
  let wh := fetch url
  if 0 < wh.1 ∧ 0 < wh.2 then
    some { url := url, width := wh.1, height := wh.2, valid := true }
  else none

/-- Observable outcomes of `LogoValidator.ValidateConcurrently`
(logo_validator.go): some subsequence `completed` of the candidates gets a
permit before the 30-second deadline (the rest are abandoned and
contribute nothing); each completed candidate contributes via
`validateSingleLogo`; the collection order over the results channel is an
arbitrary permutation. -/
def ValidationOutcome (fetch : String → Int × Int) (candidates : List String)
    (valid : List LogoInfo) : Prop :=
  ∃ completed : List String, completed.Sublist candidates ∧
    valid.Perm (completed.filterMap (validateSingleLogo fetch))

/-- Capacity of the validation permit pool: `NewLogoValidator(10)` in
`NewLogoCrawler` (crawler.go) sizes the buffered channel
`make(chan struct{}, maxConcurrent)`. -/
def validatorMaxConcurrent : Nat := 10

/-- Transitions of the permit pool (the buffered semaphore channel of
`LogoValidator`): a validation may acquire a permit only while fewer than
`cap` permits are held (`lv.semaphore <- struct{}{}` blocks otherwise),
and releases it when done (`<-lv.semaphore` in the deferred call).  The
state is the number of validations currently holding a permit. -/
inductive PoolStep (cap : Nat) : Nat → Nat → Prop
  | acquire {n : Nat} : n < cap → PoolStep cap n (n + 1)
  | release {n : Nat} : PoolStep cap (n + 1) n

/-- States of the permit pool reachable from the idle pool. -/
inductive PoolReachable (cap : Nat) : Nat → Prop
  | init : PoolReachable cap 0
  | step {n m : Nat} : PoolReachable cap n → PoolStep cap n m →
      PoolReachable cap m

/- ## LogoSelector (BestLogoSelector, latest revision with
`calculateLogoScore`) -/

/-- Go `strings.Contains hay needle`, on the character level. -/
def strContains (hay needle : String) : Bool :=
  decide (needle.toList <:+: hay.toList)

/-- Go `strings.ToLower`, per character (ASCII-faithful). -/
def toLowerStr (s : String) : String :=
  String.mk (s.data.map Char.toLower)

/-- Keyword list of `isDashboardImage`. -/
def dashboardKeywords : List String :=
  ["dashboard", "cover", "hero", "banner", "header-bg",
   "background", "splash", "landing", "homepage", "og-image",
   "social", "twitter", "facebook", "linkedin"]

/-- Go `BestLogoSelector.isDashboardImage`. -/
def isDashboardImage (logo : LogoInfo) (url : String) : Bool :=
  if 800 < logo.width ∨ 600 < logo.height then true
  else dashboardKeywords.any (fun k => strContains url k)

/-- Keyword list of `isSocialMediaImage`. -/
def socialKeywords : List String :=
  ["og-image", "twitter-image", "facebook-image", "social-image",
   "meta-image", "share-image", "preview-image"]

/-- Go `BestLogoSelector.isSocialMediaImage`. -/
def isSocialMediaImage (url : String) : Bool :=
  socialKeywords.any (fun k => strContains url k)

/-- Keyword list of `isPartnerLogo`. -/
def partnerKeywords : List String :=
  ["pci", "dss", "iso", "certified", "award", "badge",
   "credit-card", "visa", "mastercard", "amex", "rupay",
   "bank", "payment", "security", "ssl", "trust",
   "partner", "sponsor", "collaboration", "alliance"]

/-- Go `BestLogoSelector.isPartnerLogo`. -/
def isPartnerLogo (url : String) : Bool :=
  partnerKeywords.any (fun k => strContains url k)

/-- Keyword list of `isAdvertisement`. -/
def adKeywords : List String :=
  ["advertisement", "ad", "promotion", "banner", "campaign",
   "offer", "deal", "discount", "sale", "limited-time",
   "testimonial", "review", "rating", "feedback",
   "hero", "cover", "background", "splash"]

/-- Go `BestLogoSelector.isAdvertisement`. -/
def isAdvertisement (url : String) : Bool :=
  adKeywords.any (fun k => strContains url k)

/-- The Go test `aspectRatio >= 0.5 && aspectRatio <= 2.0` where
`aspectRatio := float64(w) / float64(h)`, modelled by the equivalent exact
rational comparison (IEEE rounding cannot cross either bound for
dimensions below `2^51`; division by zero yields an infinity or NaN in Go
and the comparison is false, matching the `else` branches here). -/
def aspectOk (w h : Int) : Bool :=
  if 0 < h then decide (h ≤ 2 * w ∧ w ≤ 2 * h)
  else if h < 0 then decide (2 * w ≤ h ∧ 2 * h ≤ w)
  else false

/-- The area bucket term of `calculateLogoScore`. -/
def areaScore (w h : Int) : Int :=
  let area := w * h
  if 10000 ≤ area ∧ area ≤ 100000 then 8
  else if 1000 ≤ area ∧ area < 10000 then 5
  else if 100000 < area then -10
  else 0

/-- Go `BestLogoSelector.calculateLogoScore`, transcribed term by term in
source order. -/
def calculateLogoScore (logo : LogoInfo) (prefs : Preferences) : Int :=
  let url := toLowerStr logo.url
  (if prefs.minWidth ≤ logo.width ∧ prefs.minHeight ≤ logo.height
     then 10 else -20)
  + (if strContains url "logo.clearbit.com" then 15 else 0)
  + (if strContains url "favicon.ico" then 12 else 0)
  + (if strContains url "apple-touch-icon" then 10 else 0)
  + (if strContains url ".svg" then 8 else 0)
  + (if isDashboardImage logo url then -30 else 0)
  + (if isSocialMediaImage url then -25 else 0)
  + (if isPartnerLogo url then -40 else 0)
  + (if isAdvertisement url then -35 else 0)
  + (if logo.width = logo.height then 5 else 0)
  + (if aspectOk logo.width logo.height then 3 else 0)
  + areaScore logo.width logo.height
  + (if strContains url ".png" then 3 else 0)
  + (if logo.width < 32 ∨ logo.height < 32 then -15 else 0)

/-- The loop of `BestLogoSelector.SelectBest`: the accumulator is the pair
`(best, bestScore)`; a logo replaces it only on a strictly greater score
(`score > bestScore`). -/
def selectBestGo (prefs : Preferences) :
    List LogoInfo → Option LogoInfo × Int → Option LogoInfo × Int
  | [], acc => acc
  | logo :: rest, acc =>
    if acc.2 < calculateLogoScore logo prefs then
      selectBestGo prefs rest (some logo, calculateLogoScore logo prefs)
    else
      selectBestGo prefs rest acc

/-- Go `BestLogoSelector.SelectBest` (scoring revision): early `nil` on the
empty list, then the loop starting from `best = nil`, `bestScore = -1`. -/
def selectBest (logos : List LogoInfo) (prefs : Preferences) :
    Option LogoInfo :=
  if logos.isEmpty then none
  else (selectBestGo prefs logos (none, -1)).1

/- ## DomainResolver (DomainProcessor.DetectDomain, domain_processor.go)

The Go code compiles the regular expression pattern
`[\w\.-]+\.[a-z]{2,}` and returns, if the input matches at all, the
leftmost match found by the standard (greedy, leftmost-first) engine,
and otherwise `strings.ToLower(strings.ReplaceAll(input, " ", "")) + ".com"`.
The matcher below implements exactly that engine specialised to this
pattern, on `List Char`. -/

/-- Character class of Go`s `\w` (RE2 default: ASCII word characters). -/
def isWordChar (c : Char) : Bool :=
  c.isAlphanum || c = '_'

/-- Character class `[\w\.-]`. -/
def isClassA (c : Char) : Bool :=
  isWordChar c || c = '.' || c = '-'

/-- Character class `[a-z]`. -/
def isLowerAZ (c : Char) : Bool :=
  'a' ≤ c && c ≤ 'z'

/-- Length of the maximal run of characters satisfying `p` at the head of
the list (how far a greedy `p*` advances). -/
def runLength (p : Char → Bool) : List Char → Nat
  | [] => 0
  | c :: cs => if p c then runLength p cs + 1 else 0

/-- Backtracking of the greedy `[\w\.-]+` against the rest of the pattern
`\.[a-z]{2,}`, at one start position: `j` counts down from the maximal
class-A run; the first `j` whose successor character is a dot followed by
at least two lowercase letters wins, and the trailing `[a-z]{2,}` is
greedy, so it takes the whole lowercase run. -/
def greedyFrom (s : List Char) : Nat → Option (List Char)
  | 0 => none
  | j + 1 =>
    match s.drop (j + 1) with
    | c :: after =>
      if c = '.' then
        if 2 ≤ runLength isLowerAZ after then
          some (s.take (j + 2 + runLength isLowerAZ after))
        else greedyFrom s j
      else greedyFrom s j
    | [] => greedyFrom s j

/-- The match attempt of the pattern at one start position
(the suffix `s` of the subject starting there). -/
def matchHere (s : List Char) : Option (List Char) :=
  greedyFrom s (runLength isClassA s)

/-- Go `regexp.FindString`: scan start positions left to right, return the
first (leftmost) successful match attempt. -/
def findFirstFrom : List Char → Option (List Char)
  | [] => none
  | c :: rest =>
    match matchHere (c :: rest) with
    | some m => some m
    | none => findFirstFrom rest

/-- Go `strings.ReplaceAll(input, " ", "")`: removes space characters
(only U+0020, not other whitespace). -/
def removeSpaces (s : List Char) : List Char :=
  s.filter (fun c => c ≠ ' ')

/-- Go `DomainProcessor.DetectDomain` (domain_processor.go). -/
def detectDomain (s : List Char) : List Char :=
  match findFirstFrom s with
  | some m => m
  | none => (removeSpaces s).map Char.toLower ++ ".com".toList

/-- Declarative reading of the pattern `[\w\.-]+\.[a-z]{2,}`: a non-empty
block of class-A characters, a dot, then at least two lowercase
letters. -/
def MatchesDomainPattern (t : List Char) : Prop :=
  ∃ xs ys, t = xs ++ '.' :: ys ∧ xs ≠ [] ∧ (∀ c ∈ xs, isClassA c) ∧
    (∀ c ∈ ys, isLowerAZ c) ∧ 2 ≤ ys.length

/-- A match of the pattern starts at position `i` of `s`. -/
def DomainMatchAt (s : List Char) (i : Nat) : Prop :=
  ∃ t, MatchesDomainPattern t ∧ t <+: s.drop i

/-- The claim`s broader notion of a "domain-like token": a dot followed by
at least two letters of either case. -/
def ClaimDomainToken (t : List Char) : Prop :=
  ∃ xs ys, t = xs ++ '.' :: ys ∧ xs ≠ [] ∧ (∀ c ∈ xs, isClassA c) ∧
    (∀ c ∈ ys, c.isAlpha) ∧ 2 ≤ ys.length

/- ## Orchestrator (FetchPublishersConcurrently, crawler.go) -/

/-- What one call of `FetchPublisherLogos` does inside a worker: either it
returns normally (with the logo list, best logo and a measured duration),
or an unrecoverable runtime fault unwinds it. -/
inductive TaskOutcome where
  | completes (logos : List LogoInfo) (best : Option LogoInfo)
      (duration : Nat) : TaskOutcome
  | panics (msg : String) : TaskOutcome
deriving DecidableEq, Repr

/-- The `PublisherResult` a worker builds for a normally completed task
(crawler.go lines building `result` inside the loop). -/
def taskResult (p : String) (i : Nat) (logos : List LogoInfo)
    (best : Option LogoInfo) (dur : Nat) : PublisherResult :=
  { publisher := p, logos := logos, best := best, error := none,
    duration := dur, index := i }

/-- One worker goroutine of `FetchPublishersConcurrently`, with Go
defer/recover semantics made explicit.  `deferred` is the stack (newest
first) of the recover closures registered so far; each closure captured
the `result` value of the iteration that registered it.  Per iteration
the worker first calls `FetchPublisherLogos` (outcome given by `run`),
then builds `result`, then registers `defer { recover... }`, then sends
`result`.  Hence:
* a fault in the FIRST task of a worker finds no recover closure on the
  stack and the panic escapes the goroutine — the Go runtime terminates
  the whole process (`none`);
* a fault in a later task is recovered by the newest closure, which sets
  `result.Error` on the PREVIOUS iteration`s captured result and sends
  that result a second time, after which the goroutine exits.
The value is the sequence of results sent on `resultChan`, or `none` if
the process crashed. -/
def workerSends (run : String → TaskOutcome) :
    List (Nat × String) → List PublisherResult →
    Option (List PublisherResult)
  | [], _ => some []
  | (i, p) :: ts, deferred =>
    match run p with
    | TaskOutcome.completes logos best dur =>
      let r := taskResult p i logos best dur
      (workerSends run ts (r :: deferred)).map (fun rest => r :: rest)
    | TaskOutcome.panics msg =>
      match deferred with
      | [] => none
      | prev :: _ => some [{ prev with error := some msg }]

/-- The final reordering of `FetchPublishersConcurrently`:
`sort.Slice(results, func(i, j) { return results[i].Index < results[j].Index })`. -/
def sortByIndex (results : List PublisherResult) : List PublisherResult :=
  results.mergeSort (fun a b => decide (a.index ≤ b.index))

/-- Go `FetchPublishersConcurrently` with a single worker
(`maxWorkers = 1`): the worker consumes the whole task queue in input
order, and the collected results are sorted by original index.  `none`
models the process crashing on an unrecovered panic. -/
def fetchPublishersSingleWorker (run : String → TaskOutcome)
    (publishers : List String) : Option (List PublisherResult) :=
  if publishers.isEmpty then some []
  else (workerSends run publishers.enum []).map sortByIndex

/-- The per-task results of a fault-free batch, in input order: task `i`
processes `publishers[i]` and yields a result carrying index `i`
(`run` gives the logos, best logo and duration `FetchPublisherLogos`
produced for that publisher). -/
def canonicalResults (run : String → List LogoInfo × Option LogoInfo × Nat)
    (publishers : List String) : List PublisherResult :=
  publishers.enum.map (fun ip =>
    taskResult ip.2 ip.1 (run ip.2).1 (run ip.2).2.1 (run ip.2).2.2)

/- ## Per-organization pipeline tail (crawler.go, revision with
`sortLogosWithBestFirst`) -/

/-- Go `LogoCrawler.sortLogosWithBestFirst` (crawler.go): unchanged when
there is no best logo or at most one logo; otherwise one pass splits the
list into the logos whose URL equals the best URL and the others, in
order, and concatenates the two. -/
def sortLogosWithBestFirst (logos : List LogoInfo) (best : Option LogoInfo) :
    List LogoInfo :=
  match best with
  | none => logos
  | some b =>
    if logos.length ≤ 1 then logos
    else logos.filter (fun l => l.url = b.url)
      ++ logos.filter (fun l => ¬ (l.url = b.url))

/-- The tail of `LogoCrawler.FetchPublisherLogos` after validation: the
oracle `valid` stands for the validated list returned by
`ValidateConcurrently`; the best logo is selected and the list is
reordered best-first.  Returns the pair `(sortedLogos, best)`. -/
def fetchPublisherLogosTail (valid : List LogoInfo) (prefs : Preferences) :
    List LogoInfo × Option LogoInfo :=
  (sortLogosWithBestFirst valid (selectBest valid prefs),
   selectBest valid prefs)

/- ## Helper lemmas: deduplication -/

theorem mem_unique {l seen : List String} {x : String} :
    x ∈ unique seen l ↔ x ∈ l ∧ x ≠ "" ∧ x ∉ seen := by
  induction l generalizing seen with
  | nil => simp [unique]
  | cons v rest ih =>
    by_cases h : v ≠ "" ∧ v ∉ seen
    · simp only [unique, if_pos h, List.mem_cons]
      by_cases hxv : x = v
      · subst hxv
        simp [h.1, h.2]
      · simp only [hxv, false_or]
        rw [ih]
        constructor
        · rintro ⟨hm, hne, hns⟩
          exact ⟨hm, hne, fun hs => hns (List.mem_cons_of_mem _ hs)⟩
        · rintro ⟨hm, hne, hns⟩
          refine ⟨hm, hne, fun hs => ?_⟩
          rcases List.mem_cons.mp hs with h1 | h1
          · exact hxv h1
          · exact hns h1
    · simp only [unique, if_neg h]
      rw [ih]
      simp only [List.mem_cons]
      constructor
      · rintro ⟨hm, hne, hns⟩
        exact ⟨Or.inr hm, hne, hns⟩
      · rintro ⟨hm | hm, hne, hns⟩
        · subst hm
          push_neg at h
          rcases eq_or_ne x "" with he | he
          · exact absurd he hne
          · exact absurd (h he) hns
        · exact ⟨hm, hne, hns⟩

theorem nodup_unique {l seen : List String} : (unique seen l).Nodup := by
  induction l generalizing seen with
  | nil => simp [unique]
  | cons v rest ih =>
    by_cases h : v ≠ "" ∧ v ∉ seen
    · simp only [unique, if_pos h]
      refine List.Nodup.cons (fun hv => ?_) ih
      exact (mem_unique.mp hv).2.2 (List.mem_cons_self _ _)
    · simp only [unique, if_neg h]
      exact ih

theorem unique_pairwise_indexOf {l : List String} :
    ∀ seen, (unique seen l).Pairwise
      (fun a b => l.indexOf a < l.indexOf b) := by
  induction l with
  | nil => intro seen; simp [unique]
  | cons v rest ih =>
    intro seen
    by_cases h : v ≠ "" ∧ v ∉ seen
    · simp only [unique, if_pos h]
      refine List.Pairwise.cons ?_ ?_
      · intro b hb
        have hbmem := mem_unique.mp hb
        have hbv : b ≠ v := fun he => hbmem.2.2 (he ▸ List.mem_cons_self v seen)
        rw [List.indexOf_cons_self, List.indexOf_cons_ne _ (Ne.symm hbv)]
        exact Nat.succ_pos _
      · refine (ih (v :: seen)).imp_of_mem ?_
        intro a b ha hb hab
        have hav : a ≠ v := fun he =>
          (mem_unique.mp ha).2.2 (he ▸ List.mem_cons_self v seen)
        have hbv : b ≠ v := fun he =>
          (mem_unique.mp hb).2.2 (he ▸ List.mem_cons_self v seen)
        rw [List.indexOf_cons_ne _ (Ne.symm hav), List.indexOf_cons_ne _ (Ne.symm hbv)]
        exact Nat.succ_lt_succ hab
    · simp only [unique, if_neg h]
      refine (ih seen).imp_of_mem ?_
      intro a b ha hb hab
      have hmema := mem_unique.mp ha
      have hmemb := mem_unique.mp hb
      have hav : a ≠ v := by
        push_neg at h
        rcases eq_or_ne v "" with he | he
        · exact fun hv => hmema.2.1 (hv.trans he)
        · exact fun hv => hmema.2.2 (hv ▸ h he)
      have hbv : b ≠ v := by
        push_neg at h
        rcases eq_or_ne v "" with he | he
        · exact fun hv => hmemb.2.1 (hv.trans he)
        · exact fun hv => hmemb.2.2 (hv ▸ h he)
      rw [List.indexOf_cons_ne _ (Ne.symm hav), List.indexOf_cons_ne _ (Ne.symm hbv)]
      exact Nat.succ_lt_succ hab

theorem string_append_ne_empty (domain p : String) :
    "https://" ++ domain ++ p ≠ "" := by
  intro h
  have hlen := congrArg String.length h
  simp only [String.length_append] at hlen
  have h8 : String.length "https://" = 8 := rfl
  have h0 : String.length "" = 0 := rfl
  omega

theorem clearbit_ne_empty (domain : String) : getClearbitLogo domain ≠ "" := by
  intro h
  rw [getClearbitLogo] at h
  have hlen := congrArg String.length h
  simp only [String.length_append] at hlen
  have h26 : String.length "https://logo.clearbit.com/" = 26 := rfl
  have h0 : String.length "" = 0 := rfl
  omega

/-- C6.  For every domain and every outcome of the page fetches (the
oracle `html`, which is `[]` when every HTTP fetch or parse fails),
`ExtractCandidates` still returns a list containing the eight fixed
well-known fallback URLs rooted at `https://{domain}` and the Clearbit
logo-lookup URL built from the domain. -/
theorem extract_always_includes_fallbacks (html : List String)
    (domain : String) :
    (∀ p ∈ commonFallbackPaths,
      ("https://" ++ domain ++ p) ∈ extractCandidates html domain) ∧
    getClearbitLogo domain ∈ extractCandidates html domain := by
  constructor
  · intro p hp
    rw [extractCandidates, mem_unique]
    refine ⟨?_, string_append_ne_empty domain p, List.not_mem_nil _⟩
    refine List.mem_append.mpr (Or.inl (List.mem_append.mpr (Or.inr ?_)))
    exact List.mem_map.mpr ⟨p, hp, rfl⟩
  · rw [extractCandidates, mem_unique]
    refine ⟨?_, clearbit_ne_empty domain, List.not_mem_nil _⟩
    exact List.mem_append.mpr (Or.inr (List.mem_singleton.mpr rfl))

/-- Witness for C6 at a concrete domain and a failed-fetch outcome. -/
theorem extract_always_includes_fallbacks_witness :
    "/favicon.ico" ∈ commonFallbackPaths ∧
    ("https://" ++ "ex.com" ++ "/favicon.ico") ∈ extractCandidates [] "ex.com" := by
  refine ⟨by decide, ?_⟩
  exact (extract_always_includes_fallbacks [] "ex.com").1 "/favicon.ico" (by decide)

/-- C7.  For every domain and page-fetch outcome, the candidate list
returned by `ExtractCandidates` contains no duplicate URLs, no empty
string, and its elements appear in order of their first occurrence in the
combined pre-deduplication list. -/
theorem extract_nodup_nonempty_first_occurrence (html : List String)
    (domain : String) :
    (extractCandidates html domain).Nodup ∧
    "" ∉ extractCandidates html domain ∧
    (extractCandidates html domain).Pairwise
      (fun a b => (combinedCandidates html domain).indexOf a <
        (combinedCandidates html domain).indexOf b) := by
  refine ⟨nodup_unique, ?_, ?_⟩
  · intro hmem
    exact (mem_unique.mp hmem).2.1 rfl
  · exact unique_pairwise_indexOf []

/- ## Validator theorems -/

/-- C5.  For every candidate list and every outcome of the underlying
fetches/decodes (including abandonment of any subset at the 30-second
deadline and arbitrary collection order), every `LogoInfo` returned by
`ValidateConcurrently` has positive width and height and carries the URL
of one of the input candidates; and when every fetch fails (the
dimension probe yields `(0, 0)` everywhere), the returned list is empty
(no error value exists in the interface at all). -/
theorem validate_positive_dims_and_membership
    (fetch : String → Int × Int) (candidates : List String)
    (valid : List LogoInfo) (h : ValidationOutcome fetch candidates valid) :
    (∀ logo ∈ valid,
      0 < logo.width ∧ 0 < logo.height ∧ logo.url ∈ candidates) ∧
    ((∀ url, fetch url = (0, 0)) → valid = []) := by
  obtain ⟨completed, hsub, hperm⟩ := h
  constructor
  · intro logo hmem
    have hmem2 : logo ∈ completed.filterMap (validateSingleLogo fetch) :=
      hperm.subset hmem
    obtain ⟨url, hurl, hval⟩ := List.mem_filterMap.mp hmem2
    unfold validateSingleLogo at hval
    by_cases hpos : 0 < (fetch url).1 ∧ 0 < (fetch url).2
    · rw [if_pos hpos] at hval
      obtain rfl := Option.some_injective _ hval
      exact ⟨hpos.1, hpos.2, hsub.subset hurl⟩
    · rw [if_neg hpos] at hval
      exact absurd hval (Option.some_ne_none _).symm
  · intro hfail
    have hnil : completed.filterMap (validateSingleLogo fetch) = [] := by
      rw [List.filterMap_eq_nil_iff]
      intro url _
      simp [validateSingleLogo, hfail url]
    rw [hnil] at hperm
    exact hperm.eq_nil

/-- Witness for C5: one candidate whose fetch succeeds with 3x4. -/
theorem validate_positive_dims_and_membership_witness :
    ValidationOutcome (fun _ => ((3 : Int), (4 : Int))) ["x"]
      [{ url := "x", width := 3, height := 4, valid := true }] ∧
    (0 : Int) < 3 ∧ (0 : Int) < 4 ∧ "x" ∈ ["x"] := by
  have hout : ValidationOutcome (fun _ => ((3 : Int), (4 : Int))) ["x"]
      [{ url := "x", width := 3, height := 4, valid := true }] := by
    refine ⟨["x"], List.Sublist.refl _, ?_⟩
    simp [validateSingleLogo]
  refine ⟨hout, ?_⟩
  have := (validate_positive_dims_and_membership _ _ _ hout).1
    { url := "x", width := 3, height := 4, valid := true } (by simp)
  exact this

/-- C9.  In the permit-pool model of the validator semaphore
(`make(chan struct{}, 10)`), every state reachable from the idle pool has
at most 10 validations holding a permit: no more than 10 candidate
validations of one organization call are ever in flight, however many
candidates are simultaneously slow. -/
theorem validator_inflight_bounded (n : Nat)
    (h : PoolReachable validatorMaxConcurrent n) : n ≤ 10 := by
  induction h with
  | init => exact Nat.zero_le 10
  | step _ hstep ih =>
    cases hstep with
    | acquire hlt => exact hlt
    | release => omega

/-- Witness for C9: one acquired permit is a reachable state within the
bound. -/
theorem validator_inflight_bounded_witness :
    PoolReachable validatorMaxConcurrent 1 ∧ 1 ≤ 10 := by
  have h1 : PoolReachable validatorMaxConcurrent 1 :=
    PoolReachable.step PoolReachable.init
      (PoolStep.acquire (by norm_num [validatorMaxConcurrent]))
  exact ⟨h1, validator_inflight_bounded 1 h1⟩

/- ## Best-first reordering (C10) -/

theorem takeWhile_of_all {α : Type} (p : α → Bool) (l : List α)
    (h : ∀ a ∈ l, p a = true) : l.takeWhile p = l := by
  induction l with
  | nil => rfl
  | cons a rest ih =>
    rw [List.takeWhile_cons, h a (List.mem_cons_self a rest)]
    simp [ih (fun b hb => h b (List.mem_cons_of_mem a hb))]

theorem takeWhile_of_none {α : Type} (p : α → Bool) (l : List α)
    (h : ∀ a ∈ l, p a = false) : l.takeWhile p = [] := by
  cases l with
  | nil => rfl
  | cons a rest =>
    rw [List.takeWhile_cons, h a (List.mem_cons_self a rest)]
    simp

theorem dropWhile_of_all {α : Type} (p : α → Bool) (l : List α)
    (h : ∀ a ∈ l, p a = true) : l.dropWhile p = [] := by
  induction l with
  | nil => rfl
  | cons a rest ih =>
    rw [List.dropWhile_cons, h a (List.mem_cons_self a rest)]
    simp [ih (fun b hb => h b (List.mem_cons_of_mem a hb))]

theorem dropWhile_of_none {α : Type} (p : α → Bool) (l : List α)
    (h : ∀ a ∈ l, p a = false) : l.dropWhile p = l := by
  cases l with
  | nil => rfl
  | cons a rest =>
    rw [List.dropWhile_cons, h a (List.mem_cons_self a rest)]
    simp

/-- C10.  When the pipeline selects a best logo and the validated list
has at least two entries, the logo list returned by `FetchPublisherLogos`
is a permutation of the validated list where the maximal initial block of
logos carrying the best URL consists of exactly all such logos in their
original relative order, and the remainder is exactly the other logos in
their original relative order; when no best logo is selected or the list
has at most one entry, the list is returned unchanged. -/
theorem fetchPublisherLogos_best_first_order
    (valid : List LogoInfo) (prefs : Preferences) :
    (∀ b, selectBest valid prefs = some b → 2 ≤ valid.length →
      ((fetchPublisherLogosTail valid prefs).1.Perm valid ∧
       (fetchPublisherLogosTail valid prefs).1.takeWhile
         (fun l => l.url = b.url) = valid.filter (fun l => l.url = b.url) ∧
       (fetchPublisherLogosTail valid prefs).1.dropWhile
         (fun l => l.url = b.url) =
         valid.filter (fun l => ¬ (l.url = b.url)))) ∧
    (selectBest valid prefs = none →
      (fetchPublisherLogosTail valid prefs).1 = valid) ∧
    (valid.length ≤ 1 → (fetchPublisherLogosTail valid prefs).1 = valid) := by
  refine ⟨?_, ?_, ?_⟩
  · intro b hb hlen
    have hout : (fetchPublisherLogosTail valid prefs).1 =
        valid.filter (fun l => l.url = b.url)
          ++ valid.filter (fun l => ¬ (l.url = b.url)) := by
      simp only [fetchPublisherLogosTail, sortLogosWithBestFirst, hb]
      rw [if_neg (by omega)]
    refine ⟨?_, ?_, ?_⟩
    · rw [hout]
      have hperm := List.filter_append_perm
        (fun l => decide (l.url = b.url)) valid
      simpa [decide_not] using hperm
    · rw [hout, List.takeWhile_append]
      rw [takeWhile_of_all _ _ (fun a ha => by
        simpa using (List.mem_filter.mp ha).2)]
      rw [if_pos rfl]
      rw [takeWhile_of_none _ _ (fun a ha => by
        simpa using (List.mem_filter.mp ha).2)]
      simp
    · rw [hout, List.dropWhile_append]
      rw [dropWhile_of_all _ _ (fun a ha => by
        simpa using (List.mem_filter.mp ha).2)]
      simp only [List.isEmpty_nil, if_pos]
      exact dropWhile_of_none _ _ (fun a ha => by
        simpa using (List.mem_filter.mp ha).2)
  · intro hnone
    simp only [fetchPublisherLogosTail, sortLogosWithBestFirst, hnone]
  · intro hlen
    cases hsel : selectBest valid prefs with
    | none => simp only [fetchPublisherLogosTail, sortLogosWithBestFirst, hsel]
    | some b =>
      simp only [fetchPublisherLogosTail, sortLogosWithBestFirst, hsel]
      rw [if_pos hlen]

/-- Witness for C10 at a two-element validated list whose best logo
is the favicon. -/
theorem fetchPublisherLogos_best_first_order_witness :
    selectBest
      [{ url := "u", width := 20, height := 20, valid := true },
       { url := "https://a.com/favicon.ico", width := 150, height := 150,
         valid := true }] { minWidth := 120, minHeight := 120 } =
      some { url := "https://a.com/favicon.ico", width := 150,
             height := 150, valid := true } ∧
    (fetchPublisherLogosTail
      [{ url := "u", width := 20, height := 20, valid := true },
       { url := "https://a.com/favicon.ico", width := 150, height := 150,
         valid := true }] { minWidth := 120, minHeight := 120 }).1.Perm
      [{ url := "u", width := 20, height := 20, valid := true },
       { url := "https://a.com/favicon.ico", width := 150, height := 150,
         valid := true }] := by
  refine ⟨by decide, ?_⟩
  exact ((fetchPublisherLogos_best_first_order _ _).1
    { url := "https://a.com/favicon.ico", width := 150,
      height := 150, valid := true } (by decide) (by decide)).1

/- ## Selector theorems (C3) -/

theorem selectBestGo_char (prefs : Preferences) (ls : List LogoInfo) :
    ∀ (b0 : Option LogoInfo) (s0 : Int),
    (selectBestGo prefs ls (b0, s0) = (b0, s0) ∧
      ∀ l ∈ ls, calculateLogoScore l prefs ≤ s0) ∨
    (∃ pre m post, ls = pre ++ m :: post ∧
      selectBestGo prefs ls (b0, s0) = (some m, calculateLogoScore m prefs) ∧
      s0 < calculateLogoScore m prefs ∧
      (∀ x ∈ pre, calculateLogoScore x prefs < calculateLogoScore m prefs) ∧
      (∀ x ∈ post, calculateLogoScore x prefs ≤ calculateLogoScore m prefs)) := by
  induction ls with
  | nil =>
    intro b0 s0
    left
    exact ⟨rfl, by simp⟩
  | cons logo rest ih =>
    intro b0 s0
    by_cases hup : s0 < calculateLogoScore logo prefs
    · rcases ih (some logo) (calculateLogoScore logo prefs) with
        ⟨heq, hall⟩ | ⟨pre, m, post, hsplit, heq, hgt, hpre, hpost⟩
      · right
        refine ⟨[], logo, rest, by simp, ?_, hup, by simp, hall⟩
        simp only [selectBestGo, if_pos hup]
        exact heq
      · right
        refine ⟨logo :: pre, m, post, by simp [hsplit], ?_, ?_, ?_, hpost⟩
        · simp only [selectBestGo, if_pos hup]
          exact heq
        · exact lt_trans hup hgt
        · intro x hx
          rcases List.mem_cons.mp hx with hx | hx
          · exact hx ▸ hgt
          · exact hpre x hx
    · rcases ih b0 s0 with
        ⟨heq, hall⟩ | ⟨pre, m, post, hsplit, heq, hgt, hpre, hpost⟩
      · left
        refine ⟨?_, ?_⟩
        · simp only [selectBestGo, if_neg hup]
          exact heq
        · intro l hl
          rcases List.mem_cons.mp hl with hl | hl
          · exact hl ▸ le_of_not_lt hup
          · exact hall l hl
      · right
        refine ⟨logo :: pre, m, post, by simp [hsplit], ?_, hgt, ?_, hpost⟩
        · simp only [selectBestGo, if_neg hup]
          exact heq
        · intro x hx
          rcases List.mem_cons.mp hx with hx | hx
          · exact hx ▸ lt_of_le_of_lt (le_of_not_lt hup) hgt
          · exact hpre x hx

/-- C3 (amended).  `SelectBest` returns `none` on the empty list and also
whenever every logo scores at most `-1` (the loop starts from the
sentinel `bestScore = -1` and only a strictly greater score is ever
selected); otherwise — that is, as soon as some logo scores at least 0 —
it returns the first-encountered logo of maximal score under
`calculateLogoScore`. -/
theorem selectBest_max_nonnegative_score (logos : List LogoInfo)
    (prefs : Preferences) :
    (logos = [] → selectBest logos prefs = none) ∧
    ((∀ l ∈ logos, calculateLogoScore l prefs < 0) →
      selectBest logos prefs = none) ∧
    (∀ l0 ∈ logos, 0 ≤ calculateLogoScore l0 prefs →
      ∃ pre m post, logos = pre ++ m :: post ∧
        selectBest logos prefs = some m ∧
        (∀ x ∈ logos, calculateLogoScore x prefs ≤ calculateLogoScore m prefs) ∧
        (∀ x ∈ pre, calculateLogoScore x prefs < calculateLogoScore m prefs)) := by
  refine ⟨?_, ?_, ?_⟩
  · intro h
    subst h
    rfl
  · intro hneg
    cases hl : logos with
    | nil => rfl
    | cons a rest =>
      rw [← hl]
      have hne : logos.isEmpty = false := by
        rw [hl]; rfl
      rcases selectBestGo_char prefs logos none (-1) with
        ⟨heq, _⟩ | ⟨pre, m, post, hsplit, _, hgt, _, _⟩
      · rw [selectBest, if_neg (by simp [hne]), heq]
      · exfalso
        have hm : m ∈ logos := hsplit ▸ List.mem_append.mpr
          (Or.inr (List.mem_cons_self m post))
        have := hneg m hm
        omega
  · intro l0 hl0 hscore
    rcases selectBestGo_char prefs logos none (-1) with
      ⟨_, hall⟩ | ⟨pre, m, post, hsplit, heq, _, hpre, hpost⟩
    · exfalso
      have := hall l0 hl0
      omega
    · have hne : logos.isEmpty = false := by
        cases logos with
        | nil => simp at hl0
        | cons a rest => rfl
      refine ⟨pre, m, post, hsplit, ?_, ?_, hpre⟩
      · rw [selectBest, if_neg (by simp [hne]), heq]
      · intro x hx
        rw [hsplit] at hx
        rcases List.mem_append.mp hx with hx | hx
        · exact le_of_lt (hpre x hx)
        · rcases List.mem_cons.mp hx with hx | hx
          · exact hx ▸ le_refl _
          · exact hpost x hx

/-- Counterexample for C3 as stated: a non-empty list whose only logo
scores `-27` (below the `-1` sentinel), for which `SelectBest` returns
`none` instead of that maximal-score logo. -/
theorem selectBest_negative_scores_counterexample :
    selectBest [{ url := "x", width := 1, height := 1, valid := true }]
      { minWidth := 120, minHeight := 120 } = none ∧
    ([{ url := "x", width := 1, height := 1, valid := true }] :
      List LogoInfo) ≠ [] ∧
    calculateLogoScore { url := "x", width := 1, height := 1, valid := true }
      { minWidth := 120, minHeight := 120 } = -27 := by
  refine ⟨by decide, by decide, by decide⟩

/-- Witness for C3 (amended): an all-negative list yields `none`. -/
theorem selectBest_max_nonnegative_score_witness :
    selectBest [{ url := "y", width := 1, height := 1, valid := true }]
      { minWidth := 120, minHeight := 120 } = none :=
  (selectBest_max_nonnegative_score _ _).2.1 (by decide)

/- ## DomainResolver theorems (C4) -/

theorem runLength_le_length (p : Char → Bool) (s : List Char) :
    runLength p s ≤ s.length := by
  induction s with
  | nil => exact Nat.le_refl 0
  | cons c cs ih =>
    rw [runLength]
    by_cases h : p c
    · rw [if_pos h]
      simpa using ih
    · rw [if_neg h]
      exact Nat.zero_le _

theorem all_mem_take_runLength (p : Char → Bool) (s : List Char) :
    ∀ c ∈ s.take (runLength p s), p c = true := by
  induction s with
  | nil => simp
  | cons c cs ih =>
    rw [runLength]
    by_cases h : p c
    · rw [if_pos h]
      intro d hd
      rw [List.take_succ_cons] at hd
      rcases List.mem_cons.mp hd with hd | hd
      · exact hd ▸ h
      · exact ih d hd
    · rw [if_neg h]
      simp

theorem all_mem_take_of_le_runLength (p : Char → Bool) (s : List Char)
    (j : Nat) (hj : j ≤ runLength p s) : ∀ c ∈ s.take j, p c = true := by
  intro c hc
  refine all_mem_take_runLength p s c ?_
  have : s.take j = (s.take (runLength p s)).take j := by
    rw [List.take_take, Nat.min_eq_left hj]
  rw [this] at hc
  exact List.take_subset _ _ hc

theorem length_le_runLength_append (p : Char → Bool) (xs z : List Char)
    (h : ∀ c ∈ xs, p c = true) : xs.length ≤ runLength p (xs ++ z) := by
  induction xs with
  | nil => exact Nat.zero_le _
  | cons c cs ih =>
    rw [List.cons_append, runLength, if_pos (h c (List.mem_cons_self c cs))]
    have := ih (fun d hd => h d (List.mem_cons_of_mem c hd))
    simpa using this

theorem greedyFrom_sound (s : List Char) :
    ∀ j, j ≤ runLength isClassA s → ∀ m, greedyFrom s j = some m →
      MatchesDomainPattern m ∧ m <+: s := by
  intro j
  induction j with
  | zero =>
    intro _ m hm
    exact absurd hm (by simp [greedyFrom])
  | succ j ih =>
    intro hj m hm
    rw [greedyFrom] at hm
    rcases hd : s.drop (j + 1) with _ | ⟨c, after⟩
    · rw [hd] at hm
      dsimp only at hm
      exact ih (Nat.le_of_succ_le hj) m hm
    · rw [hd] at hm
      dsimp only at hm
      by_cases hc : c = '.'
      · rw [if_pos hc] at hm
        by_cases hrl : 2 ≤ runLength isLowerAZ after
        · rw [if_pos hrl] at hm
          obtain rfl := Option.some_injective _ hm.symm
          have hjlen : j + 1 ≤ s.length :=
            le_trans hj (runLength_le_length isClassA s)
          have hsplit : s.take (j + 2 + runLength isLowerAZ after) =
              s.take (j + 1) ++ '.' :: after.take (runLength isLowerAZ after) := by
            have harith : j + 2 + runLength isLowerAZ after =
                (j + 1) + (1 + runLength isLowerAZ after) := by omega
            rw [harith, List.take_add, hd]
            have : (1 + runLength isLowerAZ after) =
                runLength isLowerAZ after + 1 := by omega
            rw [this, List.take_succ_cons, hc]
          refine ⟨?_, ?_⟩
          · refine ⟨s.take (j + 1), after.take (runLength isLowerAZ after),
              hsplit, ?_, ?_, ?_, ?_⟩
            · have : (s.take (j + 1)).length = j + 1 := by
                rw [List.length_take]
                omega
              intro hnil
              rw [hnil] at this
              simp at this
            · exact all_mem_take_of_le_runLength isClassA s (j + 1) hj
            · exact fun d hd2 => all_mem_take_runLength isLowerAZ after d hd2
            · have hrle : runLength isLowerAZ after ≤ after.length :=
                runLength_le_length isLowerAZ after
              rw [List.length_take]
              omega
          · exact ⟨s.drop (j + 2 + runLength isLowerAZ after),
              List.take_append_drop _ s⟩
        · rw [if_neg hrl] at hm
          exact ih (Nat.le_of_succ_le hj) m hm
      · rw [if_neg hc] at hm
        exact ih (Nat.le_of_succ_le hj) m hm

theorem greedyFrom_isSome_of_dot (s : List Char) :
    ∀ j j0 after, 1 ≤ j0 → j0 ≤ j → s.drop j0 = '.' :: after →
      2 ≤ runLength isLowerAZ after → (greedyFrom s j).isSome := by
  intro j
  induction j with
  | zero =>
    intro j0 _ h1 h2 _ _
    omega
  | succ j ih =>
    intro j0 after h1 h2 hdrop hrl
    by_cases hj0 : j0 = j + 1
    · subst hj0
      rw [greedyFrom, hdrop]
      dsimp only
      rw [if_pos rfl, if_pos hrl]
      rfl
    · have hle : j0 ≤ j := by omega
      rw [greedyFrom]
      rcases hd : s.drop (j + 1) with _ | ⟨c, after2⟩
      · dsimp only
        exact ih j0 after h1 hle hdrop hrl
      · dsimp only
        by_cases hc : c = '.'
        · rw [if_pos hc]
          by_cases h2le : 2 ≤ runLength isLowerAZ after2
          · rw [if_pos h2le]
            rfl
          · rw [if_neg h2le]
            exact ih j0 after h1 hle hdrop hrl
        · rw [if_neg hc]
          exact ih j0 after h1 hle hdrop hrl

theorem matchHere_sound (s : List Char) (m : List Char)
    (h : matchHere s = some m) : MatchesDomainPattern m ∧ m <+: s :=
  greedyFrom_sound s (runLength isClassA s) (Nat.le_refl _) m h

theorem matchHere_isSome_of_match (s : List Char)
    (h : ∃ t, MatchesDomainPattern t ∧ t <+: s) : (matchHere s).isSome := by
  obtain ⟨t, ⟨xs, ys, rfl, hne, hxs, hys, hlen⟩, ⟨r, hr⟩⟩ := h
  have hs : s = xs ++ '.' :: (ys ++ r) := by
    rw [← hr]
    simp
  have h1 : 1 ≤ xs.length := by
    cases xs with
    | nil => exact absurd rfl hne
    | cons a l => simp
  have hdrop : s.drop xs.length = '.' :: (ys ++ r) := by
    rw [hs]
    exact List.drop_left xs ('.' :: (ys ++ r))
  have hrl : 2 ≤ runLength isLowerAZ (ys ++ r) :=
    le_trans hlen (length_le_runLength_append isLowerAZ ys r hys)
  have hjR : xs.length ≤ runLength isClassA s := by
    rw [hs]
    exact length_le_runLength_append isClassA xs ('.' :: (ys ++ r)) hxs
  exact greedyFrom_isSome_of_dot s (runLength isClassA s) xs.length (ys ++ r)
    h1 hjR hdrop hrl

theorem no_match_of_matchHere_none (s : List Char)
    (h : matchHere s = none) : ¬ ∃ t, MatchesDomainPattern t ∧ t <+: s := by
  intro hex
  have := matchHere_isSome_of_match s hex
  rw [h] at this
  exact Bool.noConfusion this

theorem findFirstFrom_none_no_match (s : List Char)
    (h : findFirstFrom s = none) : ∀ i, matchHere (s.drop i) = none := by
  induction s with
  | nil =>
    intro i
    rw [List.drop_nil]
    rfl
  | cons c rest ih =>
    rw [findFirstFrom] at h
    rcases hmc : matchHere (c :: rest) with _ | m
    · rw [hmc] at h
      intro i
      cases i with
      | zero => exact hmc
      | succ i =>
        rw [List.drop_succ_cons]
        exact ih h i
    · rw [hmc] at h
      exact absurd h (Option.some_ne_none m)

theorem findFirstFrom_some_leftmost (s : List Char) (m : List Char)
    (h : findFirstFrom s = some m) :
    ∃ i, matchHere (s.drop i) = some m ∧
      ∀ j < i, matchHere (s.drop j) = none := by
  induction s with
  | nil => exact absurd h (by rw [findFirstFrom]; exact Option.noConfusion)
  | cons c rest ih =>
    rw [findFirstFrom] at h
    rcases hmc : matchHere (c :: rest) with _ | m2
    · rw [hmc] at h
      obtain ⟨i, hi, hlt⟩ := ih h
      refine ⟨i + 1, by simpa [List.drop_succ_cons] using hi, ?_⟩
      intro j hj
      cases j with
      | zero => exact hmc
      | succ j =>
        rw [List.drop_succ_cons]
        exact hlt j (by omega)
    · rw [hmc] at h
      dsimp only at h
      refine ⟨0, ?_, ?_⟩
      · rw [List.drop_zero, hmc]
        exact h
      · intro j hj
        omega

/-- C4 (amended).  `DetectDomain` behaves as follows: when no token of
the input matches the pattern `[\w\.-]+\.[a-z]{2,}` (dot followed by at
least two LOWERCASE letters), the result is the input lower-cased with
space characters (U+0020) removed and `".com"` appended; when some token
matches, the result is a verbatim matching token of the input taken at
the leftmost possible start position. -/
theorem detectDomain_characterization (s : List Char) :
    (findFirstFrom s = none →
      (∀ i, ¬ DomainMatchAt s i) ∧
      detectDomain s = (removeSpaces s).map Char.toLower ++ ".com".toList) ∧
    (∀ m, findFirstFrom s = some m →
      detectDomain s = m ∧ MatchesDomainPattern m ∧
      ∃ i, m <+: s.drop i ∧ ∀ j < i, ¬ DomainMatchAt s j) := by
  constructor
  · intro hnone
    constructor
    · intro i
      exact no_match_of_matchHere_none (s.drop i)
        (findFirstFrom_none_no_match s hnone i)
    · rw [detectDomain, hnone]
  · intro m hsome
    obtain ⟨i, hi, hlt⟩ := findFirstFrom_some_leftmost s m hsome
    obtain ⟨hpat, hpre⟩ := matchHere_sound (s.drop i) m hi
    refine ⟨by rw [detectDomain, hsome], hpat, i, hpre, ?_⟩
    intro j hj
    exact no_match_of_matchHere_none (s.drop j) (hlt j hj)

/-- Witness for C4 (amended) at an input with no matching token. -/
theorem detectDomain_characterization_witness :
    detectDomain "Acme Corp".toList =
      (removeSpaces "Acme Corp".toList).map Char.toLower ++ ".com".toList :=
  ((detectDomain_characterization "Acme Corp".toList).1 (by decide)).2

/-- Counterexample for C4 as stated: `"Example.COM"` contains a
domain-like token in the claim`s sense (a dot followed by two or more
letters — here upper-case), yet `DetectDomain` does not return any
verbatim token of the input: it falls through to the lower-case fallback
and returns `"example.com.com"`, which is longer than the whole input. -/
theorem detectDomain_uppercase_suffix_counterexample :
    ClaimDomainToken "Example.COM".toList ∧
    (∀ t, t <:+: "Example.COM".toList →
      detectDomain "Example.COM".toList ≠ t) := by
  constructor
  · exact ⟨"Example".toList, "COM".toList, by decide, by decide, by decide,
      by decide, by decide⟩
  · intro t hinf heq
    obtain ⟨u, v, huv⟩ := hinf
    have hlen := congrArg List.length huv
    have h11 : ("Example.COM".toList).length = 11 := by decide
    have h15 : (detectDomain "Example.COM".toList).length = 15 := by decide
    rw [h11] at hlen
    simp only [List.length_append] at hlen
    have ht : t.length = 15 := by
      rw [← heq]
      exact h15
    omega

/- ## Orchestrator theorems (C1, C2, C8) -/

theorem canonical_map_index
    (run : String → List LogoInfo × Option LogoInfo × Nat)
    (publishers : List String) :
    (canonicalResults run publishers).map PublisherResult.index =
      List.range publishers.length := by
  rw [canonicalResults, List.map_map]
  have hcomp : (PublisherResult.index ∘ fun ip : Nat × String =>
      taskResult ip.2 ip.1 (run ip.2).1 (run ip.2).2.1 (run ip.2).2.2) =
      Prod.fst := rfl
  rw [hcomp, List.enum_map_fst]

theorem canonical_pairwise
    (run : String → List LogoInfo × Option LogoInfo × Nat)
    (publishers : List String) :
    (canonicalResults run publishers).Pairwise
      (fun a b => a.index < b.index) := by
  have h : List.Pairwise (fun a b => a < b)
      ((canonicalResults run publishers).map PublisherResult.index) := by
    rw [canonical_map_index]
    exact List.pairwise_lt_range publishers.length
  exact List.pairwise_map.mp h

theorem sortByIndex_eq_canonical
    (run : String → List LogoInfo × Option LogoInfo × Nat)
    (publishers : List String) (collected : List PublisherResult)
    (hperm : collected.Perm (canonicalResults run publishers)) :
    sortByIndex collected = canonicalResults run publishers := by
  have hsorted0 := @List.sorted_mergeSort PublisherResult
    (fun a b => decide (a.index ≤ b.index))
    (fun a b c hab hbc => by
      simp only [decide_eq_true_eq] at hab hbc ⊢
      omega)
    (fun a b => by
      simp only [Bool.or_eq_true, decide_eq_true_eq]
      omega)
    collected
  have hsorted : (sortByIndex collected).Pairwise
      (fun a b => a.index ≤ b.index) := by
    refine hsorted0.imp ?_
    intro a b hab
    simpa using hab
  have hpermsort : (sortByIndex collected).Perm
      (canonicalResults run publishers) :=
    (List.mergeSort_perm collected _).trans hperm
  have hnodup : ((sortByIndex collected).map PublisherResult.index).Nodup := by
    have hcan : ((canonicalResults run publishers).map
        PublisherResult.index).Nodup := by
      rw [canonical_map_index]
      exact List.nodup_range publishers.length
    exact hcan.perm (hpermsort.map PublisherResult.index).symm
  have hstrict : (sortByIndex collected).Pairwise
      (fun a b => a.index < b.index) := by
    have hne : (sortByIndex collected).Pairwise
        (fun a b => a.index ≠ b.index) := List.pairwise_map.mp hnodup
    exact (hsorted.and hne).imp (fun h => lt_of_le_of_ne h.1 h.2)
  haveI : IsAntisymm PublisherResult (fun a b => a.index < b.index) :=
    ⟨fun a b h1 h2 => absurd (lt_trans h1 h2) (lt_irrefl _)⟩
  exact List.eq_of_perm_of_sorted hpermsort hstrict
    (canonical_pairwise run publishers)

/-- C2.  In any fault-free run of `FetchPublishersConcurrently`
(every task completes normally; any number of workers; any completion
order — i.e. the collected results are an arbitrary permutation of the
per-task results), the final index sort restores exactly the canonical
input-ordered result list: output length equals input length and the
`i`-th result carries the `i`-th publisher and original index `i`. -/
theorem fetchPublishers_preserves_input_order
    (run : String → List LogoInfo × Option LogoInfo × Nat)
    (publishers : List String) (collected : List PublisherResult)
    (hperm : collected.Perm (canonicalResults run publishers)) :
    sortByIndex collected = canonicalResults run publishers ∧
    (sortByIndex collected).length = publishers.length ∧
    ∀ i, i < publishers.length →
      (sortByIndex collected)[i]?.map PublisherResult.publisher =
        publishers[i]? ∧
      (sortByIndex collected)[i]?.map PublisherResult.index = some i := by
  have heq := sortByIndex_eq_canonical run publishers collected hperm
  refine ⟨heq, ?_, ?_⟩
  · rw [heq, canonicalResults, List.length_map, List.enum_length]
  · intro i hi
    rw [heq, canonicalResults, List.getElem?_map, List.getElem?_enum,
      List.getElem?_eq_getElem hi]
    simp [taskResult]

/-- Witness for C2: two publishers collected in reversed completion
order are resequenced to input order. -/
theorem fetchPublishers_preserves_input_order_witness :
    ([{ publisher := "b", logos := [], best := none, error := none,
        duration := 0, index := 1 },
      { publisher := "a", logos := [], best := none, error := none,
        duration := 0, index := 0 }] : List PublisherResult).Perm
      (canonicalResults (fun _ => ([], none, 0)) ["a", "b"]) ∧
    sortByIndex
      [{ publisher := "b", logos := [], best := none, error := none,
         duration := 0, index := 1 },
       { publisher := "a", logos := [], best := none, error := none,
         duration := 0, index := 0 }] =
      canonicalResults (fun _ => ([], none, 0)) ["a", "b"] := by
  have hperm :
      ([{ publisher := "b", logos := [], best := none, error := none,
          duration := 0, index := 1 },
        { publisher := "a", logos := [], best := none, error := none,
          duration := 0, index := 0 }] : List PublisherResult).Perm
        (canonicalResults (fun _ => ([], none, 0)) ["a", "b"]) := by decide
  exact ⟨hperm,
    (fetchPublishers_preserves_input_order _ _ _ hperm).1⟩

/-- C1 (evaluation at the failing input).  A panic in the first task a
worker picks up finds no recover closure registered (the
`defer func(){ recover() ... }()` of crawler.go is only registered AFTER
`FetchPublisherLogos` has returned), so the panic escapes the goroutine
and the Go runtime terminates the whole process: with one organization
whose task faults and `maxWorkers = 1`, the batch yields no results at
all instead of one error-carrying result. -/
theorem fetchPublishers_panic_first_task_crashes :
    fetchPublishersSingleWorker (fun _ => TaskOutcome.panics "boom") ["a"] =
      none := by
  decide

/-- C8 (evaluation at the failing input).  When a later task panics, the
newest recover closure — which captured the PREVIOUS iteration`s already
sent result — fires: that previous result is sent a second time with
`Error` now set while still carrying its non-empty logo list and best
logo.  The batch `["a", "b"]` (task "a" completes with one logo, task
"b" panics, one worker) therefore contains a result whose error is set
and whose logo list is non-empty and best logo present. -/
theorem fetchPublishers_error_result_nonempty_logos :
    ∃ results,
      fetchPublishersSingleWorker
        (fun p => if p = "a"
          then TaskOutcome.completes
            [{ url := "u", width := 50, height := 50, valid := true }]
            (some { url := "u", width := 50, height := 50, valid := true }) 7
          else TaskOutcome.panics "boom")
        ["a", "b"] = some results ∧
      ∃ r ∈ results, r.error ≠ none ∧ r.logos ≠ [] ∧ r.best ≠ none := by
  refine ⟨sortByIndex [
    { publisher := "a",
      logos := [{ url := "u", width := 50, height := 50, valid := true }],
      best := some { url := "u", width := 50, height := 50, valid := true },
      error := none, duration := 7, index := 0 },
    { publisher := "a",
      logos := [{ url := "u", width := 50, height := 50, valid := true }],
      best := some { url := "u", width := 50, height := 50, valid := true },
      error := some "boom", duration := 7, index := 0 }], ?_, ?_⟩
  · rw [fetchPublishersSingleWorker, if_neg (by decide)]
    have hsends : workerSends
        (fun p => if p = "a"
          then TaskOutcome.completes
            [{ url := "u", width := 50, height := 50, valid := true }]
            (some { url := "u", width := 50, height := 50, valid := true }) 7
          else TaskOutcome.panics "boom")
        (["a", "b"].enum) [] = some [
      { publisher := "a",
        logos := [{ url := "u", width := 50, height := 50, valid := true }],
        best := some { url := "u", width := 50, height := 50, valid := true },
        error := none, duration := 7, index := 0 },
      { publisher := "a",
        logos := [{ url := "u", width := 50, height := 50, valid := true }],
        best := some { url := "u", width := 50, height := 50, valid := true },
        error := some "boom", duration := 7, index := 0 }] := by decide
    rw [hsends]
    rfl
  · have hperm := List.mergeSort_perm ([
      { publisher := "a",
        logos := [{ url := "u", width := 50, height := 50, valid := true }],
        best := some { url := "u", width := 50, height := 50, valid := true },
        error := none, duration := 7, index := 0 },
      { publisher := "a",
        logos := [{ url := "u", width := 50, height := 50, valid := true }],
        best := some { url := "u", width := 50, height := 50, valid := true },
        error := some "boom", duration := 7, index := 0 }] :
        List PublisherResult)
      (fun a b => decide (a.index ≤ b.index))
    refine ⟨
      { publisher := "a",
        logos := [{ url := "u", width := 50, height := 50, valid := true }],
        best := some { url := "u", width := 50, height := 50, valid := true },
        error := some "boom", duration := 7, index := 0 },
      hperm.mem_iff.mpr (by decide), by decide, by decide, by decide⟩
